import Mathlib

/-!
Shallow embedding of the Invisible Maze game logic (src/client/script.js).

The maze generator, connectivity checker (breadth-first search) and
navigation engine are translated from the JavaScript source.  Randomness
(the key rejection-sampling loop and the comparator shuffle of the
candidate wall list) is modelled by quantifying over its outcome: the key
position is a parameter constrained to be in bounds and distinct from the
start and door cells, and the shuffled candidate order is a parameter
constrained to be a permutation of the enumerated candidate list.

The JavaScript breadth-first search loop terminates because the visited
set grows on every enqueue; the embedding makes that explicit by running
the loop on a fuel of `size * size + 2`, which is proved sufficient
(`bfsAux_fuel_indep`: any fuel at least that large yields the same
result).
-/

/-- A grid cell, a coordinate pair as used throughout `script.js`. -/
structure Cell where
  x : Int
  y : Int
deriving DecidableEq, Repr

/-- Canonical wall orientation: `'right'` or `'bottom'` in the source. -/
inductive WDir where
  | right
  | bottom
deriving DecidableEq, Repr

/-- A wall entry `{x, y, dir}` as stored in `STATE.walls`. -/
structure Wall where
  x : Int
  y : Int
  dir : WDir
deriving DecidableEq, Repr

/-- A movement direction: `'top' | 'bottom' | 'left' | 'right'`. -/
inductive MDir where
  | top
  | bottom
  | left
  | right
deriving DecidableEq, Repr

/-- Neighbor cell in a movement direction (`nx`/`ny` computation of
`moveAvatar` and the `dirs` deltas of `hasPath`). -/
def moveCell (c : Cell) : MDir → Cell
  | .top => ⟨c.x, c.y - 1⟩
  | .bottom => ⟨c.x, c.y + 1⟩
  | .left => ⟨c.x - 1, c.y⟩
  | .right => ⟨c.x + 1, c.y⟩

/-- The bounds check `nx >= 0 && nx < size && ny >= 0 && ny < size`. -/
def inBounds (n : Int) (c : Cell) : Bool :=
  decide (0 ≤ c.x) && decide (c.x < n) && decide (0 ≤ c.y) && decide (c.y < n)

/-- `hasWall(x, y, moveDir)`: whether crossing the edge from `(x,y)` in a
movement direction hits a stored wall, after canonicalization. -/
def hasWall (walls : List Wall) (x y : Int) : MDir → Bool
  | .right => walls.any fun w => decide (w.x = x) && decide (w.y = y) && decide (w.dir = WDir.right)
  | .left => walls.any fun w => decide (w.x = x - 1) && decide (w.y = y) && decide (w.dir = WDir.right)
  | .bottom => walls.any fun w => decide (w.x = x) && decide (w.y = y) && decide (w.dir = WDir.bottom)
  | .top => walls.any fun w => decide (w.x = x) && decide (w.y = y - 1) && decide (w.dir = WDir.bottom)

/-- The `dirs` array of `hasPath`, in source order. -/
def dirsList : List MDir := [.top, .bottom, .left, .right]

/-- One direction of the neighbor-expansion step of the BFS loop: bounds
check, wall check, visited check, then enqueue and mark visited. -/
def stepDir (w : List Wall) (n : Int) (c : Cell) (qv : List Cell × List Cell) (d : MDir) :
    List Cell × List Cell :=
  let nc := moveCell c d
  if inBounds n nc && !hasWall w c.x c.y d then
    if nc ∈ qv.2 then qv else (qv.1 ++ [nc], qv.2 ++ [nc])
  else qv

/-- Expansion of all four directions for the dequeued cell `c`. -/
def expand (w : List Wall) (n : Int) (c : Cell) (qv : List Cell × List Cell) :
    List Cell × List Cell :=
  dirsList.foldl (stepDir w n c) qv

/-- The `while (queue.length > 0)` loop of `hasPath`, with explicit fuel.
First component is the queue (dequeue at the head, enqueue at the tail),
second is the visited set in insertion order. -/
def bfsAux (w : List Wall) (n : Int) (t : Cell) : Nat → List Cell → List Cell → Bool
  | 0, _, _ => false
  | _ + 1, [], _ => false
  | fuel + 1, c :: q, v =>
    if c = t then true
    else
      let qv := expand w n c (q, v)
      bfsAux w n t fuel qv.1 qv.2

/-- Fuel sufficient for the BFS loop: one iteration per possible enqueue
(the start cell plus at most `n * n` distinct in-bounds cells) plus one. -/
def bfsFuel (n : Int) : Nat := n.toNat * n.toNat + 2

/-- `hasPath(start, end)` of the source, on an explicit wall set and size. -/
def hasPath (w : List Wall) (n : Int) (s t : Cell) : Bool :=
  bfsAux w n t (bfsFuel n) [s] [s]

/-- Start position fixed by `generateLevel`: bottom left `(0, size-1)`. -/
def startCell (n : Int) : Cell := ⟨0, n - 1⟩

/-- Door position fixed by `generateLevel`: top right `(size-1, 0)`. -/
def doorCell (n : Int) : Cell := ⟨n - 1, 0⟩

/-- `isSolvable()`: start reaches key and key reaches door. -/
def isSolvable (walls : List Wall) (n : Int) (avatar key door : Cell) : Bool :=
  hasPath walls n avatar key && hasPath walls n key door

/-- The `possibleWalls` candidate enumeration of `generateLevel`:
horizontal (bottom) walls row by row, then vertical (right) walls column
by column. -/
def possibleWalls (n : Int) : List Wall :=
  ((List.range (n - 1).toNat).flatMap fun y =>
    (List.range n.toNat).map fun x => ⟨(x : Int), (y : Int), WDir.bottom⟩) ++
  ((List.range (n - 1).toNat).flatMap fun x =>
    (List.range n.toNat).map fun y => ⟨(x : Int), (y : Int), WDir.right⟩)

/-- The wall-insertion loop of `generateLevel`: walk the shuffled
candidates, stop once `target` walls were kept, push each candidate and
pop it again if the maze stops being solvable. -/
def addWallsLoop (n : Int) (key : Cell) (target : Nat) :
    List Wall → List Wall → Nat → List Wall
  | [], walls, _ => walls
  | c :: rest, walls, added =>
    if target ≤ added then walls
    else
      if isSolvable (walls ++ [c]) n (startCell n) key (doorCell n) then
        addWallsLoop n key target rest (walls ++ [c]) (added + 1)
      else
        addWallsLoop n key target rest walls added

/-- `generateLevel`, with the key position and the shuffled candidate
order as parameters (outcomes of the two randomized steps). -/
def generateLevel (n : Int) (key : Cell) (shuffled : List Wall) (target : Nat) : List Wall :=
  addWallsLoop n key target shuffled [] 0

/-- `STATE.mode`. -/
inductive Mode where
  | practice
  | challenge
deriving DecidableEq, Repr

/-- The run-relevant fields of the global `STATE` object. -/
structure GameState where
  gridSize : Int
  mode : Mode
  avatarPos : Cell
  keyPos : Cell
  doorPos : Cell
  hasKey : Bool
  attempts : Nat
  walls : List Wall
  revealedWalls : List String
  isPlaying : Bool
deriving DecidableEq, Repr

/-- The string key of a canonical wall as stored in `revealedWalls`. -/
def wallKeyStr (x y : Int) : WDir → String
  | .right => toString x ++ "," ++ toString y ++ ",right"
  | .bottom => toString x ++ "," ++ toString y ++ ",bottom"

/-- The `wallKey` computed in `handleCollision` for each hit direction. -/
def collisionKey (x y : Int) : MDir → String
  | .right => wallKeyStr x y .right
  | .bottom => wallKeyStr x y .bottom
  | .left => wallKeyStr (x - 1) y .right
  | .top => wallKeyStr x (y - 1) .bottom

/-- `endGame(success)`: stops play (screen and score effects are UI). -/
def endGame (s : GameState) (success : Bool) : GameState :=
  { s with isPlaying := false }

/-- `handleCollision(fromX, fromY, dir)`: count the attempt, reveal the
hit wall if new, reset the avatar to the start corner, and in challenge
mode end the run. -/
def handleCollision (s : GameState) (fromX fromY : Int) (dir : MDir) : GameState :=
  let s1 : GameState := { s with attempts := s.attempts + 1 }
  let k := collisionKey fromX fromY dir
  let s2 : GameState :=
    if k ∈ s1.revealedWalls then s1
    else { s1 with revealedWalls := s1.revealedWalls ++ [k] }
  let s3 : GameState := { s2 with avatarPos := ⟨0, s2.gridSize - 1⟩ }
  if s3.mode = Mode.challenge then endGame s3 false else s3

/-- `checkEntityCollision()`: pick up the key, then open the door if the
avatar stands on it holding the key. -/
def checkEntityCollision (s : GameState) : GameState :=
  let s1 : GameState :=
    if !s.hasKey && decide (s.avatarPos = s.keyPos) then { s with hasKey := true } else s
  if s1.avatarPos = s1.doorPos then
    if s1.hasKey then endGame s1 true else s1
  else s1

/-- `moveAvatar(dir)`: bounds check, wall check, then move. -/
def moveAvatar (s : GameState) (dir : MDir) : GameState :=
  let nc := moveCell s.avatarPos dir
  if nc.x < 0 ∨ s.gridSize ≤ nc.x ∨ nc.y < 0 ∨ s.gridSize ≤ nc.y then s
  else if hasWall s.walls s.avatarPos.x s.avatarPos.y dir then
    handleCollision s s.avatarPos.x s.avatarPos.y dir
  else
    checkEntityCollision { s with avatarPos := nc }

/-- A move request as delivered by `handleInput`, which ignores input
unless `STATE.isPlaying` holds. -/
def attemptMove (s : GameState) (dir : MDir) : GameState :=
  if s.isPlaying then moveAvatar s dir else s

/-- `startGame` followed by `generateLevel`: reset the run state and
install a freshly generated maze. -/
def startGame (s : GameState) (key : Cell) (shuffled : List Wall) (target : Nat) : GameState :=
  { s with
    isPlaying := true
    attempts := 0
    hasKey := false
    revealedWalls := []
    avatarPos := startCell s.gridSize
    doorPos := doorCell s.gridSize
    keyPos := key
    walls := generateLevel s.gridSize key shuffled target }

/-- One open traversable edge of the grid graph: the BFS may step from
`c` to `d` exactly when some direction leads there in bounds with no
stored wall on the crossed edge. -/
def adjOpen (w : List Wall) (n : Int) (c d : Cell) : Prop :=
  ∃ dir : MDir, d = moveCell c dir ∧ inBounds n (moveCell c dir) = true ∧
    hasWall w c.x c.y dir = false

/-- Invariant of the BFS loop state (queue, visited). -/
structure BfsInv (w : List Wall) (n : Int) (t : Cell) (q v : List Cell) : Prop where
  vBounds : ∀ c ∈ v, inBounds n c = true
  vNodup : v.Nodup
  qNodup : q.Nodup
  qSubV : ∀ c ∈ q, c ∈ v
  closedDone : ∀ c ∈ v, c ∉ q → ∀ d : MDir, inBounds n (moveCell c d) = true →
    hasWall w c.x c.y d = false → moveCell c d ∈ v
  tQueued : t ∈ v → t ∈ q

/-- Termination measure of the BFS loop: pending queue entries plus one
unit per possible future enqueue. -/
def bfsMeasure (n : Int) (q v : List Cell) : Nat :=
  q.length + (n.toNat * n.toNat - v.length)

/-- The seven cells a size-3 key rejection-sampling loop can produce:
every in-bounds cell except the start `(0,2)` and the door `(2,0)`. -/
def keyList3 : List Cell := [⟨0, 0⟩, ⟨0, 1⟩, ⟨1, 0⟩, ⟨1, 1⟩, ⟨1, 2⟩, ⟨2, 1⟩, ⟨2, 2⟩]

/-- All wall sets of size at most one drawn from the size-3 candidates. -/
def fCands3 : List (List Wall) := [] :: (possibleWalls 3).map fun w => [w]

/-- A small concrete game state on a 2x2 grid, used to exercise the
navigation engine: one wall to the right of the start cell. -/
def sampleBase : GameState :=
  { gridSize := 2
    mode := Mode.practice
    avatarPos := ⟨0, 1⟩
    keyPos := ⟨1, 1⟩
    doorPos := ⟨1, 0⟩
    hasKey := false
    attempts := 0
    walls := [⟨0, 1, WDir.right⟩]
    revealedWalls := []
    isPlaying := true }

lemma inBounds_iff {n : Int} {c : Cell} :
    inBounds n c = true ↔ 0 ≤ c.x ∧ c.x < n ∧ 0 ≤ c.y ∧ c.y < n := by
  simp [inBounds, and_assoc]

lemma hasWall_nil (x y : Int) (d : MDir) : hasWall [] x y d = false := by
  cases d <;> rfl

lemma hasWall_mono {w1 w2 : List Wall} (hsub : ∀ a ∈ w1, a ∈ w2) (x y : Int) (d : MDir) :
    hasWall w1 x y d = true → hasWall w2 x y d = true := by
  cases d <;>
    · simp only [hasWall, List.any_eq_true]
      rintro ⟨a, ha, hp⟩
      exact ⟨a, hsub a ha, hp⟩

lemma adjOpen_mono {w1 w2 : List Wall} {n : Int} (hsub : ∀ a ∈ w1, a ∈ w2) {c d : Cell} :
    adjOpen w2 n c d → adjOpen w1 n c d := by
  rintro ⟨dir, hd, hb, hw⟩
  refine ⟨dir, hd, hb, ?_⟩
  cases h : hasWall w1 c.x c.y dir
  · rfl
  · exact absurd (hasWall_mono hsub _ _ _ h) (by simp [hw])

lemma length_le_of_nodup_inBounds {n : Int} {v : List Cell} (hnd : v.Nodup)
    (hb : ∀ c ∈ v, inBounds n c = true) : v.length ≤ n.toNat * n.toNat := by
  classical
  have hinj : Function.Injective fun c : Cell => (c.x, c.y) := by
    intro a b h
    cases a; cases b
    simpa using h
  have hmapnd : (v.map fun c : Cell => (c.x, c.y)).Nodup := hnd.map hinj
  have hsub : (v.map fun c : Cell => (c.x, c.y)).toFinset ⊆
      (Finset.Ico (0 : Int) n) ×ˢ (Finset.Ico (0 : Int) n) := by
    intro p hp
    rw [List.mem_toFinset] at hp
    simp only [List.mem_map] at hp
    obtain ⟨c, hc, rfl⟩ := hp
    have h := inBounds_iff.mp (hb c hc)
    simp only [Finset.mem_product, Finset.mem_Ico]
    exact ⟨⟨h.1, h.2.1⟩, ⟨h.2.2.1, h.2.2.2⟩⟩
  have h1 : v.length = (v.map fun c : Cell => (c.x, c.y)).toFinset.card := by
    rw [List.toFinset_card_of_nodup hmapnd, List.length_map]
  rw [h1]
  calc (v.map fun c : Cell => (c.x, c.y)).toFinset.card
      ≤ ((Finset.Ico (0 : Int) n) ×ˢ (Finset.Ico (0 : Int) n)).card := Finset.card_le_card hsub
    _ = n.toNat * n.toNat := by rw [Finset.card_product, Int.card_Ico, sub_zero]

lemma foldl_stepDir_spec (w : List Wall) (n : Int) (c : Cell) (ds : List MDir) :
    ∀ q v : List Cell, ∃ l : List Cell,
      List.foldl (stepDir w n c) (q, v) ds = (q ++ l, v ++ l) ∧
      (∀ x ∈ l, x ∉ v ∧ inBounds n x = true ∧
        ∃ d : MDir, x = moveCell c d ∧ hasWall w c.x c.y d = false) ∧
      (v.Nodup → (v ++ l).Nodup) ∧
      (∀ d ∈ ds, inBounds n (moveCell c d) = true → hasWall w c.x c.y d = false →
        moveCell c d ∈ v ++ l) := by
  induction ds with
  | nil =>
    intro q v
    exact ⟨[], by simp, by simp, by simp, by simp⟩
  | cons d ds ih =>
    intro q v
    by_cases hcond : (inBounds n (moveCell c d) && !hasWall w c.x c.y d) = true
    · by_cases hmem : moveCell c d ∈ v
      · obtain ⟨l, hEq, hl, hnd, hcov⟩ := ih q v
        refine ⟨l, ?_, hl, hnd, ?_⟩
        · simpa [stepDir, hcond, hmem] using hEq
        · intro d' hd' hb hw
          rcases List.mem_cons.mp hd' with rfl | hd'
          · exact List.mem_append.mpr (Or.inl hmem)
          · exact hcov d' hd' hb hw
      · obtain ⟨l, hEq, hl, hnd, hcov⟩ := ih (q ++ [moveCell c d]) (v ++ [moveCell c d])
        rw [Bool.and_eq_true, Bool.not_eq_eq_eq_not, Bool.not_true] at hcond
        refine ⟨moveCell c d :: l, ?_, ?_, ?_, ?_⟩
        · have hstep : List.foldl (stepDir w n c) (q, v) (d :: ds) =
              List.foldl (stepDir w n c) (q ++ [moveCell c d], v ++ [moveCell c d]) ds := by
            simp [stepDir, hcond.1, hcond.2, hmem]
          rw [hstep, hEq]
          simp
        · intro x hx
          rcases List.mem_cons.mp hx with rfl | hx
          · exact ⟨hmem, hcond.1, d, rfl, hcond.2⟩
          · obtain ⟨hxv, hxb, hxd⟩ := hl x hx
            exact ⟨fun hc => hxv (List.mem_append.mpr (Or.inl hc)), hxb, hxd⟩
        · intro hvnd
          have h1 : (v ++ [moveCell c d]).Nodup := by
            refine hvnd.append (List.nodup_singleton _) ?_
            intro a ha hb
            rw [List.mem_singleton] at hb
            exact hmem (hb ▸ ha)
          have h2 := hnd h1
          simpa using h2
        · intro d' hd' hb hw
          rcases List.mem_cons.mp hd' with heq | hd'
          · rw [heq]
            simp
          · have h3 := hcov d' hd' hb hw
            simpa using h3
    · obtain ⟨l, hEq, hl, hnd, hcov⟩ := ih q v
      refine ⟨l, by simpa [stepDir, hcond] using hEq, hl, hnd, ?_⟩
      intro d' hd' hb hw
      rcases List.mem_cons.mp hd' with rfl | hd'
      · exact absurd (by simp [hb, hw]) hcond
      · exact hcov d' hd' hb hw

lemma expand_spec (w : List Wall) (n : Int) (c : Cell) (q v : List Cell) :
    ∃ l : List Cell,
      expand w n c (q, v) = (q ++ l, v ++ l) ∧
      (∀ x ∈ l, x ∉ v ∧ inBounds n x = true ∧
        ∃ d : MDir, x = moveCell c d ∧ hasWall w c.x c.y d = false) ∧
      (v.Nodup → (v ++ l).Nodup) ∧
      (∀ d : MDir, inBounds n (moveCell c d) = true → hasWall w c.x c.y d = false →
        moveCell c d ∈ v ++ l) := by
  obtain ⟨l, h1, h2, h3, h4⟩ := foldl_stepDir_spec w n c dirsList q v
  exact ⟨l, h1, h2, h3, fun d => h4 d (by cases d <;> simp [dirsList])⟩

lemma bfsInv_step {w : List Wall} {n : Int} {t c : Cell} {q v : List Cell}
    (inv : BfsInv w n t (c :: q) v) (hct : c ≠ t) :
    BfsInv w n t (expand w n c (q, v)).1 (expand w n c (q, v)).2 ∧
    bfsMeasure n (expand w n c (q, v)).1 (expand w n c (q, v)).2 + 1 =
      bfsMeasure n (c :: q) v ∧
    (∀ x ∈ v, x ∈ (expand w n c (q, v)).2) := by
  obtain ⟨l, hEq, hl, hnd, hcov⟩ := expand_spec w n c q v
  rw [hEq]
  have hvnd : (v ++ l).Nodup := hnd inv.vNodup
  have hvb : ∀ x ∈ v ++ l, inBounds n x = true := by
    intro x hx
    rcases List.mem_append.mp hx with hx | hx
    · exact inv.vBounds x hx
    · exact (hl x hx).2.1
  have hcard : (v ++ l).length ≤ n.toNat * n.toNat :=
    length_le_of_nodup_inBounds hvnd hvb
  refine ⟨⟨hvb, hvnd, ?_, ?_, ?_, ?_⟩, ?_, ?_⟩
  · have hqnd : q.Nodup := inv.qNodup.of_cons
    have hlnd : l.Nodup := hvnd.of_append_right
    refine hqnd.append hlnd ?_
    intro a ha hal
    exact (hl a hal).1 (inv.qSubV a (List.mem_cons_of_mem c ha))
  · intro x hx
    rcases List.mem_append.mp hx with hx | hx
    · exact List.mem_append.mpr (Or.inl (inv.qSubV x (List.mem_cons_of_mem c hx)))
    · exact List.mem_append.mpr (Or.inr hx)
  · intro x hx hxq d hb hw
    rcases List.mem_append.mp hx with hxv | hxl
    · by_cases hxc : x = c
      · subst hxc
        exact hcov d hb hw
      · have hxq' : x ∉ c :: q := by
          intro hmem
          rcases List.mem_cons.mp hmem with h | h
          · exact hxc h
          · exact hxq (List.mem_append.mpr (Or.inl h))
        exact List.mem_append.mpr (Or.inl (inv.closedDone x hxv hxq' d hb hw))
    · exact absurd (List.mem_append.mpr (Or.inr hxl)) hxq
  · intro htv
    rcases List.mem_append.mp htv with htv | htl
    · have := inv.tQueued htv
      rcases List.mem_cons.mp this with h | h
      · exact absurd h.symm hct
      · exact List.mem_append.mpr (Or.inl h)
    · exact List.mem_append.mpr (Or.inr htl)
  · simp only [bfsMeasure, List.length_append, List.length_cons]
    rw [List.length_append] at hcard
    omega
  · intro x hx
    exact List.mem_append.mpr (Or.inl hx)

lemma bfs_false_closed {w : List Wall} {n : Int} {t : Cell} :
    ∀ (fuel : Nat) (q v : List Cell), BfsInv w n t q v →
    bfsMeasure n q v + 1 ≤ fuel → bfsAux w n t fuel q v = false →
    ∃ V : List Cell, (∀ x ∈ v, x ∈ V) ∧ t ∉ V ∧
      (∀ x ∈ V, ∀ d : MDir, inBounds n (moveCell x d) = true →
        hasWall w x.x x.y d = false → moveCell x d ∈ V) := by
  intro fuel
  induction fuel with
  | zero =>
    intro q v _ hf _
    omega
  | succ fuel ih =>
    intro q v inv hf hres
    cases q with
    | nil =>
      refine ⟨v, fun x hx => hx, ?_, ?_⟩
      · intro htv
        exact List.not_mem_nil t (inv.tQueued htv)
      · intro x hx d hb hw
        exact inv.closedDone x hx (List.not_mem_nil x) d hb hw
    | cons c q =>
      by_cases hct : c = t
      · rw [bfsAux, if_pos hct] at hres
        exact absurd hres (by simp)
      · have hres' : bfsAux w n t fuel (expand w n c (q, v)).1 (expand w n c (q, v)).2 = false := by
          rw [bfsAux, if_neg hct] at hres
          exact hres
        obtain ⟨inv', hmeas, hsub⟩ := bfsInv_step inv hct
        have hf' : bfsMeasure n (expand w n c (q, v)).1 (expand w n c (q, v)).2 + 1 ≤ fuel := by
          omega
        obtain ⟨V, hV1, hV2, hV3⟩ := ih _ _ inv' hf' hres'
        exact ⟨V, fun x hx => hV1 x (hsub x hx), hV2, hV3⟩

lemma bfsInv_init {w : List Wall} {n : Int} {t s : Cell} (hs : inBounds n s = true) :
    BfsInv w n t [s] [s] := by
  refine ⟨?_, ?_, ?_, ?_, ?_, ?_⟩
  · intro c hc
    rw [List.mem_singleton] at hc
    exact hc ▸ hs
  · exact List.nodup_singleton s
  · exact List.nodup_singleton s
  · exact fun c hc => hc
  · intro c hc hcq
    exact absurd hc hcq
  · exact fun h => h

lemma bfsMeasure_init {n : Int} {s : Cell} : bfsMeasure n [s] [s] + 1 ≤ bfsFuel n := by
  simp only [bfsMeasure, bfsFuel, List.length_singleton]
  omega

lemma rtg_mem_closed {w : List Wall} {n : Int} {V : List Cell}
    (hV3 : ∀ x ∈ V, ∀ d : MDir, inBounds n (moveCell x d) = true →
      hasWall w x.x x.y d = false → moveCell x d ∈ V)
    {s t : Cell} (hs : s ∈ V) (hpath : Relation.ReflTransGen (adjOpen w n) s t) : t ∈ V := by
  induction hpath with
  | refl => exact hs
  | tail _ hbc ihm =>
    obtain ⟨dir, rfl, hb, hw⟩ := hbc
    exact hV3 _ ihm dir hb hw

lemma hasPath_complete {w : List Wall} {n : Int} {s t : Cell} (hs : inBounds n s = true)
    (hpath : Relation.ReflTransGen (adjOpen w n) s t) : hasPath w n s t = true := by
  by_contra h
  have hres : bfsAux w n t (bfsFuel n) [s] [s] = false := by
    rw [hasPath] at h
    exact Bool.not_eq_true _ ▸ h
  obtain ⟨V, hV1, hV2, hV3⟩ :=
    bfs_false_closed (bfsFuel n) [s] [s] (bfsInv_init hs) bfsMeasure_init hres
  have hsV : s ∈ V := hV1 s (List.mem_singleton_self s)
  exact hV2 (rtg_mem_closed hV3 hsV hpath)

lemma bfs_sound {w : List Wall} {n : Int} {t : Cell} :
    ∀ (fuel : Nat) (q v : List Cell) (s : Cell),
    (∀ x ∈ v, Relation.ReflTransGen (adjOpen w n) s x) → (∀ x ∈ q, x ∈ v) →
    bfsAux w n t fuel q v = true → Relation.ReflTransGen (adjOpen w n) s t := by
  intro fuel
  induction fuel with
  | zero =>
    intro q v s _ _ h
    exact absurd h (by simp [bfsAux])
  | succ fuel ih =>
    intro q v s hreach hqv h
    cases q with
    | nil => exact absurd h (by simp [bfsAux])
    | cons c q =>
      by_cases hct : c = t
      · exact hct ▸ hreach c (hqv c (List.mem_cons_self c q))
      · rw [bfsAux, if_neg hct] at h
        obtain ⟨l, hEq, hl, _, _⟩ := expand_spec w n c q v
        rw [hEq] at h
        refine ih (q ++ l) (v ++ l) s ?_ ?_ h
        · intro x hx
          rcases List.mem_append.mp hx with hx | hx
          · exact hreach x hx
          · obtain ⟨_, hb, d, rfl, hw⟩ := hl x hx
            exact (hreach c (hqv c (List.mem_cons_self c q))).tail ⟨d, rfl, hb, hw⟩
        · intro x hx
          rcases List.mem_append.mp hx with hx | hx
          · exact List.mem_append.mpr (Or.inl (hqv x (List.mem_cons_of_mem c hx)))
          · exact List.mem_append.mpr (Or.inr hx)

lemma hasPath_sound {w : List Wall} {n : Int} {s t : Cell} (h : hasPath w n s t = true) :
    Relation.ReflTransGen (adjOpen w n) s t := by
  refine bfs_sound (bfsFuel n) [s] [s] s ?_ (fun x hx => hx) h
  intro x hx
  rw [List.mem_singleton] at hx
  exact hx ▸ Relation.ReflTransGen.refl

lemma bfsAux_fuel_indep {w : List Wall} {n : Int} {t : Cell} :
    ∀ (f1 f2 : Nat) (q v : List Cell), BfsInv w n t q v →
    bfsMeasure n q v + 1 ≤ f1 → bfsMeasure n q v + 1 ≤ f2 →
    bfsAux w n t f1 q v = bfsAux w n t f2 q v := by
  intro f1
  induction f1 with
  | zero =>
    intro f2 q v _ h1 _
    omega
  | succ f1 ih =>
    intro f2 q v inv h1 h2
    obtain ⟨f2, rfl⟩ : ∃ g, f2 = g + 1 := ⟨f2 - 1, by omega⟩
    cases q with
    | nil => rfl
    | cons c q =>
      by_cases hct : c = t
      · rw [bfsAux, bfsAux, if_pos hct, if_pos hct]
      · obtain ⟨inv', hmeas, _⟩ := bfsInv_step inv hct
        rw [bfsAux, bfsAux, if_neg hct, if_neg hct]
        exact ih f2 (expand w n c (q, v)).1 (expand w n c (q, v)).2 inv'
          (by omega) (by omega)

lemma openGridPath {n : Int} :
    ∀ (m : Nat) (a b : Cell), inBounds n a = true → inBounds n b = true →
    (b.x - a.x).natAbs + (b.y - a.y).natAbs = m →
    Relation.ReflTransGen (adjOpen [] n) a b := by
  intro m
  induction m with
  | zero =>
    intro a b _ _ hm
    have hx : a.x = b.x := by omega
    have hy : a.y = b.y := by omega
    have hab : a = b := by
      cases a; cases b
      simp_all
    exact hab ▸ Relation.ReflTransGen.refl
  | succ m ih =>
    intro a b ha hb hm
    have ha' := inBounds_iff.mp ha
    have hb' := inBounds_iff.mp hb
    rcases lt_trichotomy a.x b.x with hx | hx | hx
    · refine Relation.ReflTransGen.head
        (⟨.right, rfl, inBounds_iff.mpr ?_, hasWall_nil _ _ _⟩ :
          adjOpen [] n a (moveCell a .right)) (ih (moveCell a .right) b ?_ hb ?_)
      · simp only [moveCell]
        omega
      · rw [inBounds_iff]
        simp only [moveCell]
        omega
      · simp only [moveCell]
        omega
    · rcases lt_trichotomy a.y b.y with hy | hy | hy
      · refine Relation.ReflTransGen.head
          (⟨.bottom, rfl, inBounds_iff.mpr ?_, hasWall_nil _ _ _⟩ :
            adjOpen [] n a (moveCell a .bottom)) (ih (moveCell a .bottom) b ?_ hb ?_)
        · simp only [moveCell]
          omega
        · rw [inBounds_iff]
          simp only [moveCell]
          omega
        · simp only [moveCell]
          omega
      · omega
      · refine Relation.ReflTransGen.head
          (⟨.top, rfl, inBounds_iff.mpr ?_, hasWall_nil _ _ _⟩ :
            adjOpen [] n a (moveCell a .top)) (ih (moveCell a .top) b ?_ hb ?_)
        · simp only [moveCell]
          omega
        · rw [inBounds_iff]
          simp only [moveCell]
          omega
        · simp only [moveCell]
          omega
    · refine Relation.ReflTransGen.head
        (⟨.left, rfl, inBounds_iff.mpr ?_, hasWall_nil _ _ _⟩ :
          adjOpen [] n a (moveCell a .left)) (ih (moveCell a .left) b ?_ hb ?_)
      · simp only [moveCell]
        omega
      · rw [inBounds_iff]
        simp only [moveCell]
        omega
      · simp only [moveCell]
        omega

lemma isSolvable_nil {n : Int} {s k d : Cell} (hs : inBounds n s = true)
    (hk : inBounds n k = true) (hd : inBounds n d = true) :
    isSolvable [] n s k d = true := by
  rw [isSolvable, Bool.and_eq_true]
  exact ⟨hasPath_complete hs (openGridPath _ s k hs hk rfl),
    hasPath_complete hk (openGridPath _ k d hk hd rfl)⟩

lemma addWallsLoop_solvable {n : Int} {key : Cell} {target : Nat} :
    ∀ (cands walls : List Wall) (added : Nat),
    isSolvable walls n (startCell n) key (doorCell n) = true →
    isSolvable (addWallsLoop n key target cands walls added) n (startCell n) key
      (doorCell n) = true := by
  intro cands
  induction cands with
  | nil =>
    intro walls added h
    exact h
  | cons c rest ih =>
    intro walls added h
    rw [addWallsLoop]
    by_cases h1 : target ≤ added
    · rw [if_pos h1]
      exact h
    · rw [if_neg h1]
      by_cases h2 : isSolvable (walls ++ [c]) n (startCell n) key (doorCell n) = true
      · rw [if_pos h2]
        exact ih (walls ++ [c]) (added + 1) h2
      · rw [if_neg h2]
        exact ih walls added h

lemma addWallsLoop_sub {n : Int} {key : Cell} {target : Nat} :
    ∀ (cands walls : List Wall) (added : Nat),
    ∃ K : List Wall, addWallsLoop n key target cands walls added = walls ++ K ∧
      K.Sublist cands := by
  intro cands
  induction cands with
  | nil =>
    intro walls added
    exact ⟨[], by simp [addWallsLoop], List.nil_sublist _⟩
  | cons c rest ih =>
    intro walls added
    rw [addWallsLoop]
    by_cases h1 : target ≤ added
    · rw [if_pos h1]
      exact ⟨[], by simp, List.nil_sublist _⟩
    · rw [if_neg h1]
      by_cases h2 : isSolvable (walls ++ [c]) n (startCell n) key (doorCell n) = true
      · rw [if_pos h2]
        obtain ⟨K, hK, hs⟩ := ih (walls ++ [c]) (added + 1)
        exact ⟨c :: K, by rw [hK]; simp, hs.cons₂ c⟩
      · rw [if_neg h2]
        obtain ⟨K, hK, hs⟩ := ih walls added
        exact ⟨K, hK, hs.cons c⟩

lemma addWallsLoop_length {n : Int} {key : Cell} {target : Nat} :
    ∀ (cands walls : List Wall) (added : Nat), added ≤ target → walls.length = added →
    (addWallsLoop n key target cands walls added).length ≤ target := by
  intro cands
  induction cands with
  | nil =>
    intro walls added hle hlen
    rw [addWallsLoop]
    omega
  | cons c rest ih =>
    intro walls added hle hlen
    rw [addWallsLoop]
    by_cases h1 : target ≤ added
    · rw [if_pos h1]
      omega
    · rw [if_neg h1]
      by_cases h2 : isSolvable (walls ++ [c]) n (startCell n) key (doorCell n) = true
      · rw [if_pos h2]
        exact ih (walls ++ [c]) (added + 1) (by omega) (by simp [hlen])
      · rw [if_neg h2]
        exact ih walls added hle hlen

lemma isSolvable_mono {w1 w2 : List Wall} {n : Int} {a k d : Cell}
    (hsub : ∀ x ∈ w1, x ∈ w2) (ha : inBounds n a = true) (hk : inBounds n k = true) :
    isSolvable w2 n a k d = true → isSolvable w1 n a k d = true := by
  rw [isSolvable, isSolvable, Bool.and_eq_true, Bool.and_eq_true]
  rintro ⟨h1, h2⟩
  constructor
  · exact hasPath_complete ha ((hasPath_sound h1).mono fun x y => adjOpen_mono hsub)
  · exact hasPath_complete hk ((hasPath_sound h2).mono fun x y => adjOpen_mono hsub)

lemma addWallsLoop_cover {n : Int} {key : Cell} {target : Nat}
    (hs : inBounds n (startCell n) = true) (hk : inBounds n key = true) :
    ∀ (cands walls : List Wall) (added : Nat), walls.length = added → added ≤ target →
    (addWallsLoop n key target cands walls added).length < target →
    ∀ w ∈ cands, w ∈ addWallsLoop n key target cands walls added ∨
      isSolvable (addWallsLoop n key target cands walls added ++ [w]) n (startCell n) key
        (doorCell n) = false := by
  intro cands
  induction cands with
  | nil =>
    intro walls added _ _ _ w hw
    exact absurd hw (List.not_mem_nil w)
  | cons c rest ih =>
    intro walls added hlen hle hlt w hw
    rw [addWallsLoop] at hlt ⊢
    by_cases h1 : target ≤ added
    · rw [if_pos h1] at hlt
      omega
    · rw [if_neg h1] at hlt ⊢
      by_cases h2 : isSolvable (walls ++ [c]) n (startCell n) key (doorCell n) = true
      · rw [if_pos h2] at hlt ⊢
        rcases List.mem_cons.mp hw with heq | hw
        · left
          obtain ⟨K, hK, _⟩ := addWallsLoop_sub rest (walls ++ [c]) (added + 1)
          rw [hK, heq]
          simp
        · exact ih (walls ++ [c]) (added + 1) (by simp [hlen]) (by omega) hlt w hw
      · rw [if_neg h2] at hlt ⊢
        rcases List.mem_cons.mp hw with heq | hw
        · right
          subst heq
          obtain ⟨K, hK, _⟩ := addWallsLoop_sub rest walls added
          cases hsolv : isSolvable (addWallsLoop n key target rest walls added ++ [w]) n
            (startCell n) key (doorCell n)
          · rfl
          · exfalso
            refine h2 (isSolvable_mono ?_ hs hk hsolv)
            intro x hx
            rw [hK]
            rcases List.mem_append.mp hx with hx | hx
            · exact List.mem_append.mpr (Or.inl (List.mem_append.mpr (Or.inl hx)))
            · exact List.mem_append.mpr (Or.inr hx)
        · exact ih walls added hlen (by omega) hlt w hw

lemma mem_possibleWalls {n : Int} {w : Wall} : w ∈ possibleWalls n ↔
    (w.dir = WDir.bottom ∧ 0 ≤ w.x ∧ w.x < n ∧ 0 ≤ w.y ∧ w.y < n - 1) ∨
    (w.dir = WDir.right ∧ 0 ≤ w.x ∧ w.x < n - 1 ∧ 0 ≤ w.y ∧ w.y < n) := by
  obtain ⟨wx, wy, wdir⟩ := w
  simp only [possibleWalls, List.mem_append, List.mem_flatMap, List.mem_map, List.mem_range]
  constructor
  · rintro (⟨y, hy, x, hx, heq⟩ | ⟨x, hx, y, hy, heq⟩)
    · cases heq
      left
      refine ⟨rfl, ?_, ?_, ?_, ?_⟩ <;> omega
    · cases heq
      right
      refine ⟨rfl, ?_, ?_, ?_, ?_⟩ <;> omega
  · rintro (⟨hdir, h1, h2, h3, h4⟩ | ⟨hdir, h1, h2, h3, h4⟩) <;> subst hdir
    · refine Or.inl ⟨wy.toNat, by omega, wx.toNat, by omega, ?_⟩
      simp only [Wall.mk.injEq]
      refine ⟨by omega, by omega, trivial⟩
    · refine Or.inr ⟨wx.toNat, by omega, wy.toNat, by omega, ?_⟩
      simp only [Wall.mk.injEq]
      refine ⟨by omega, by omega, trivial⟩

lemma possibleWalls_nodup (n : Int) : (possibleWalls n).Nodup := by
  rw [possibleWalls]
  refine List.Nodup.append ?_ ?_ ?_
  · rw [List.nodup_flatMap]
    constructor
    · intro y _
      refine (List.nodup_range _).map ?_
      intro a b hab
      simp only [Wall.mk.injEq] at hab
      omega
    · refine (List.pairwise_lt_range _).imp ?_
      intro a b hab z hz1 hz2
      simp only [List.mem_map] at hz1 hz2
      obtain ⟨x1, _, rfl⟩ := hz1
      obtain ⟨x2, _, heq⟩ := hz2
      simp only [Wall.mk.injEq] at heq
      omega
  · rw [List.nodup_flatMap]
    constructor
    · intro x _
      refine (List.nodup_range _).map ?_
      intro a b hab
      simp only [Wall.mk.injEq] at hab
      omega
    · refine (List.pairwise_lt_range _).imp ?_
      intro a b hab z hz1 hz2
      simp only [List.mem_map] at hz1 hz2
      obtain ⟨y1, _, rfl⟩ := hz1
      obtain ⟨y2, _, heq⟩ := hz2
      simp only [Wall.mk.injEq] at heq
      omega
  · intro z hz1 hz2
    simp only [List.mem_flatMap, List.mem_map] at hz1 hz2
    obtain ⟨y, _, x, _, rfl⟩ := hz1
    obtain ⟨x2, _, y2, _, heq⟩ := hz2
    simp only [Wall.mk.injEq] at heq
    exact absurd heq.2.2 (by simp)

lemma mem_keyList3 {k : Cell} (hb : inBounds 3 k = true)
    (h1 : k ≠ startCell 3) (h2 : k ≠ doorCell 3) : k ∈ keyList3 := by
  obtain ⟨kx, ky⟩ := k
  rw [inBounds_iff] at hb
  simp only at hb
  have hx : kx = 0 ∨ kx = 1 ∨ kx = 2 := by omega
  have hy : ky = 0 ∨ ky = 1 ∨ ky = 2 := by omega
  rcases hx with rfl | rfl | rfl <;> rcases hy with rfl | rfl | rfl
  · decide
  · decide
  · exact absurd (by decide) h1
  · decide
  · decide
  · decide
  · exact absurd (by decide) h2
  · decide
  · decide

lemma rich3 : ∀ k ∈ keyList3, ∀ F ∈ fCands3,
    isSolvable F 3 (startCell 3) k (doorCell 3) = true →
    ∃ w ∈ possibleWalls 3, w ∉ F ∧
      isSolvable (F ++ [w]) 3 (startCell 3) k (doorCell 3) = true := by decide

lemma handleCollision_fields (s : GameState) (x y : Int) (dir : MDir) :
    (handleCollision s x y dir).attempts = s.attempts + 1 ∧
    (handleCollision s x y dir).revealedWalls =
      (if collisionKey x y dir ∈ s.revealedWalls then s.revealedWalls
        else s.revealedWalls ++ [collisionKey x y dir]) ∧
    (handleCollision s x y dir).avatarPos = ⟨0, s.gridSize - 1⟩ ∧
    (handleCollision s x y dir).hasKey = s.hasKey ∧
    (handleCollision s x y dir).walls = s.walls ∧
    (handleCollision s x y dir).keyPos = s.keyPos ∧
    (handleCollision s x y dir).doorPos = s.doorPos ∧
    (handleCollision s x y dir).gridSize = s.gridSize ∧
    (handleCollision s x y dir).isPlaying =
      (if s.mode = Mode.challenge then false else s.isPlaying) := by
  rw [handleCollision]
  by_cases hm : s.mode = Mode.challenge <;>
    by_cases hmem : collisionKey x y dir ∈ s.revealedWalls <;>
      simp [endGame, hm, hmem]

lemma checkEntityCollision_fields (s : GameState) :
    (checkEntityCollision s).attempts = s.attempts ∧
    (checkEntityCollision s).revealedWalls = s.revealedWalls ∧
    (checkEntityCollision s).walls = s.walls ∧
    (checkEntityCollision s).keyPos = s.keyPos ∧
    (checkEntityCollision s).doorPos = s.doorPos ∧
    (checkEntityCollision s).gridSize = s.gridSize ∧
    (checkEntityCollision s).avatarPos = s.avatarPos ∧
    (s.hasKey = true → (checkEntityCollision s).hasKey = true) := by
  rw [checkEntityCollision]
  split_ifs <;> simp_all [endGame]

lemma attemptMove_collision {s : GameState} {dir : MDir} (hplay : s.isPlaying = true)
    (hb : ¬((moveCell s.avatarPos dir).x < 0 ∨ s.gridSize ≤ (moveCell s.avatarPos dir).x ∨
      (moveCell s.avatarPos dir).y < 0 ∨ s.gridSize ≤ (moveCell s.avatarPos dir).y))
    (hw : hasWall s.walls s.avatarPos.x s.avatarPos.y dir = true) :
    attemptMove s dir = handleCollision s s.avatarPos.x s.avatarPos.y dir := by
  rw [attemptMove, if_pos hplay]
  simp only [moveAvatar]
  rw [if_neg hb, if_pos hw]

lemma attemptMove_success {s : GameState} {dir : MDir} (hplay : s.isPlaying = true)
    (hb : ¬((moveCell s.avatarPos dir).x < 0 ∨ s.gridSize ≤ (moveCell s.avatarPos dir).x ∨
      (moveCell s.avatarPos dir).y < 0 ∨ s.gridSize ≤ (moveCell s.avatarPos dir).y))
    (hw : hasWall s.walls s.avatarPos.x s.avatarPos.y dir = false) :
    attemptMove s dir = checkEntityCollision { s with avatarPos := moveCell s.avatarPos dir } := by
  rw [attemptMove, if_pos hplay]
  simp only [moveAvatar]
  rw [if_neg hb, if_neg (by simp [hw])]

lemma attemptMove_not_playing {s : GameState} {dir : MDir} (h : s.isPlaying = false) :
    attemptMove s dir = s := by
  rw [attemptMove, if_neg (by simp [h])]

lemma collisionKey_of_hasWall {walls : List Wall} {x y : Int} {dir : MDir}
    (h : hasWall walls x y dir = true) :
    ∃ w ∈ walls, wallKeyStr w.x w.y w.dir = collisionKey x y dir := by
  cases dir <;>
    · simp only [hasWall, List.any_eq_true, Bool.and_eq_true, decide_eq_true_eq] at h
      obtain ⟨w, hw, ⟨hx, hy⟩, hd⟩ := h
      refine ⟨w, hw, ?_⟩
      rw [hx, hy, hd]
      rfl

lemma bfsAux_cons (w : List Wall) (n : Int) (t : Cell) (fuel : Nat) (c : Cell)
    (q v : List Cell) :
    bfsAux w n t (fuel + 1) (c :: q) v =
      if c = t then true
      else bfsAux w n t fuel (expand w n c (q, v)).1 (expand w n c (q, v)).2 := rfl

/-- C1: every maze returned by `generateLevel` — for any size at least 2,
any target wall count, and any outcome of the randomness (key position in
bounds as the sampler guarantees, any candidate order) — satisfies the
solvability check on the full wall set: the start reaches the key and the
key reaches the door. -/
theorem claim_C1_generated_maze_solvable (n : Int) (key : Cell) (shuffled : List Wall)
    (target : Nat) (hn : 2 ≤ n) (hkey : inBounds n key = true) :
    isSolvable (generateLevel n key shuffled target) n (startCell n) key (doorCell n) = true := by
  have hs : inBounds n (startCell n) = true := by
    rw [inBounds_iff]
    simp only [startCell]
    omega
  have hd : inBounds n (doorCell n) = true := by
    rw [inBounds_iff]
    simp only [doorCell]
    omega
  exact addWallsLoop_solvable shuffled [] 0 (isSolvable_nil hs hkey hd)

theorem claim_C1_generated_maze_solvable_witness :
    isSolvable (generateLevel 3 ⟨1, 1⟩ (possibleWalls 3) 2) 3 (startCell 3) ⟨1, 1⟩
      (doorCell 3) = true :=
  claim_C1_generated_maze_solvable 3 ⟨1, 1⟩ (possibleWalls 3) 2 (by decide) (by decide)

/-- C5: `generateLevel` never keeps more walls than the requested target,
and at size 3 with target 2 it keeps exactly 2 walls, for every key the
rejection sampler can produce and every shuffled candidate order. -/
theorem claim_C5_wall_count_bounds :
    (∀ (n : Int) (key : Cell) (sh : List Wall) (t : Nat),
      (generateLevel n key sh t).length ≤ t) ∧
    (∀ (key : Cell) (sh : List Wall), inBounds 3 key = true → key ≠ startCell 3 →
      key ≠ doorCell 3 → sh.Perm (possibleWalls 3) →
      (generateLevel 3 key sh 2).length = 2) := by
  constructor
  · intro n key sh t
    exact addWallsLoop_length sh [] 0 (Nat.zero_le t) rfl
  · intro key sh hkb h1 h2 hperm
    simp only [generateLevel]
    have hs3 : inBounds 3 (startCell 3) = true := by decide
    have hd3 : inBounds 3 (doorCell 3) = true := by decide
    have hle : (addWallsLoop 3 key 2 sh [] 0).length ≤ 2 :=
      addWallsLoop_length sh [] 0 (Nat.zero_le 2) rfl
    by_contra hne
    have hlt : (addWallsLoop 3 key 2 sh [] 0).length < 2 := by omega
    have hsolv : isSolvable (addWallsLoop 3 key 2 sh [] 0) 3 (startCell 3) key
        (doorCell 3) = true :=
      addWallsLoop_solvable sh [] 0 (isSolvable_nil hs3 hkb hd3)
    obtain ⟨K, hK, hsub⟩ := @addWallsLoop_sub 3 key 2 sh [] 0
    rw [List.nil_append] at hK
    have hmemPW : ∀ x ∈ addWallsLoop 3 key 2 sh [] 0, x ∈ possibleWalls 3 := by
      intro x hx
      rw [hK] at hx
      exact hperm.mem_iff.mp (hsub.subset hx)
    have hRf : addWallsLoop 3 key 2 sh [] 0 ∈ fCands3 := by
      cases hR : addWallsLoop 3 key 2 sh [] 0 with
      | nil => exact List.mem_cons_self _ _
      | cons w0 rest =>
        have hrest : rest = [] := by
          rw [hR] at hlt
          simp only [List.length_cons] at hlt
          exact List.length_eq_zero.mp (by omega)
        subst hrest
        rw [fCands3]
        refine List.mem_cons_of_mem _ ?_
        rw [List.mem_map]
        refine ⟨w0, ?_, rfl⟩
        refine hmemPW w0 ?_
        rw [hR]
        exact List.mem_cons_self _ _
    obtain ⟨w, hwPW, hwR, hwsolv⟩ := rich3 key (mem_keyList3 hkb h1 h2) _ hRf hsolv
    have hcov := @addWallsLoop_cover 3 key 2 hs3 hkb sh [] 0 rfl (Nat.zero_le 2) hlt
    rcases hcov w (hperm.mem_iff.mpr hwPW) with hin | hfalse
    · exact hwR hin
    · rw [hwsolv] at hfalse
      exact absurd hfalse (by simp)

theorem claim_C5_wall_count_bounds_witness :
    (generateLevel 3 ⟨1, 1⟩ (possibleWalls 3) 2).length = 2 :=
  claim_C5_wall_count_bounds.2 ⟨1, 1⟩ (possibleWalls 3) (by decide) (by decide) (by decide)
    (List.Perm.refl _)

/-- C7: a generated wall set has no duplicate canonical edges and every
wall is in bounds for its orientation: right walls satisfy
`0 ≤ x < n - 1`, `0 ≤ y < n`, bottom walls `0 ≤ x < n`, `0 ≤ y < n - 1`. -/
theorem claim_C7_wall_set_wellformed (n : Int) (key : Cell) (sh : List Wall) (target : Nat)
    (hperm : sh.Perm (possibleWalls n)) :
    (generateLevel n key sh target).Nodup ∧
    ∀ w ∈ generateLevel n key sh target,
      (w.dir = WDir.right → 0 ≤ w.x ∧ w.x < n - 1 ∧ 0 ≤ w.y ∧ w.y < n) ∧
      (w.dir = WDir.bottom → 0 ≤ w.x ∧ w.x < n ∧ 0 ≤ w.y ∧ w.y < n - 1) := by
  obtain ⟨K, hK, hsub⟩ := @addWallsLoop_sub n key target sh [] 0
  rw [List.nil_append] at hK
  have hgl : generateLevel n key sh target = K := by rw [generateLevel, hK]
  rw [hgl]
  have hshnd : sh.Nodup := hperm.nodup_iff.mpr (possibleWalls_nodup n)
  constructor
  · exact List.Nodup.sublist hsub hshnd
  · intro w hw
    have hm := mem_possibleWalls.mp (hperm.mem_iff.mp (hsub.subset hw))
    rcases hm with ⟨hd, hbnd⟩ | ⟨hd, hbnd⟩
    · constructor
      · intro hdir
        rw [hd] at hdir
        exact absurd hdir (by decide)
      · intro _
        exact hbnd
    · constructor
      · intro _
        exact hbnd
      · intro hdir
        rw [hd] at hdir
        exact absurd hdir (by decide)

theorem claim_C7_wall_set_wellformed_witness :
    (generateLevel 3 ⟨1, 1⟩ (possibleWalls 3) 2).Nodup :=
  (claim_C7_wall_set_wellformed 3 ⟨1, 1⟩ (possibleWalls 3) 2 (List.Perm.refl _)).1

/-- C9: the connectivity check terminates with a boolean for every wall
set and every pair of in-bounds cells — expressed as fuel-stability: any
fuel at least the chosen bound yields the same result — and it returns
true whenever the two cells coincide. -/
theorem claim_C9_hasPath_total (w : List Wall) (n : Int) (a b : Cell) (extra : Nat)
    (ha : inBounds n a = true) (hb : inBounds n b = true) :
    hasPath w n a a = true ∧
    bfsAux w n b (bfsFuel n + extra) [a] [a] = hasPath w n a b := by
  constructor
  · rw [hasPath, show bfsFuel n = n.toNat * n.toNat + 1 + 1 from rfl, bfsAux_cons, if_pos rfl]
  · rw [hasPath]
    exact bfsAux_fuel_indep (bfsFuel n + extra) (bfsFuel n) [a] [a] (bfsInv_init ha)
      (le_trans bfsMeasure_init (Nat.le_add_right _ _)) bfsMeasure_init

theorem claim_C9_hasPath_total_witness :
    hasPath [] 2 ⟨0, 0⟩ ⟨0, 0⟩ = true ∧
    bfsAux [] 2 ⟨1, 1⟩ (bfsFuel 2 + 5) [⟨0, 0⟩] [⟨0, 0⟩] = hasPath [] 2 ⟨0, 0⟩ ⟨1, 1⟩ :=
  claim_C9_hasPath_total [] 2 ⟨0, 0⟩ ⟨1, 1⟩ 5 (by decide) (by decide)

/-- C2: a collision (in-bounds target whose crossed edge is a stored
wall) increments the attempt counter by exactly one, appends the crossed
canonical edge key to the revealed set unless already present, and resets
the actor to the start corner `(0, N-1)`. -/
theorem claim_C2_collision_effects (s : GameState) (dir : MDir)
    (hplay : s.isPlaying = true)
    (hbounds : ¬((moveCell s.avatarPos dir).x < 0 ∨ s.gridSize ≤ (moveCell s.avatarPos dir).x ∨
      (moveCell s.avatarPos dir).y < 0 ∨ s.gridSize ≤ (moveCell s.avatarPos dir).y))
    (hw : hasWall s.walls s.avatarPos.x s.avatarPos.y dir = true) :
    (attemptMove s dir).attempts = s.attempts + 1 ∧
    (attemptMove s dir).revealedWalls =
      (if collisionKey s.avatarPos.x s.avatarPos.y dir ∈ s.revealedWalls then s.revealedWalls
        else s.revealedWalls ++ [collisionKey s.avatarPos.x s.avatarPos.y dir]) ∧
    (attemptMove s dir).avatarPos = ⟨0, s.gridSize - 1⟩ := by
  rw [attemptMove_collision hplay hbounds hw]
  obtain ⟨h1, h2, h3, _⟩ := handleCollision_fields s s.avatarPos.x s.avatarPos.y dir
  exact ⟨h1, h2, h3⟩

theorem claim_C2_collision_effects_witness :
    (attemptMove sampleBase .right).attempts = sampleBase.attempts + 1 ∧
    (attemptMove sampleBase .right).revealedWalls =
      (if collisionKey sampleBase.avatarPos.x sampleBase.avatarPos.y .right ∈
          sampleBase.revealedWalls then sampleBase.revealedWalls
        else sampleBase.revealedWalls ++
          [collisionKey sampleBase.avatarPos.x sampleBase.avatarPos.y .right]) ∧
    (attemptMove sampleBase .right).avatarPos = ⟨0, sampleBase.gridSize - 1⟩ :=
  claim_C2_collision_effects sampleBase .right (by decide) (by decide) (by decide)

/-- C3: in challenge mode a single collision ends the run (play stops,
the level-failed transition), and afterwards every further move request
returns the state unchanged. -/
theorem claim_C3_challenge_collision_terminal (s : GameState) (dir : MDir)
    (hplay : s.isPlaying = true) (hmode : s.mode = Mode.challenge)
    (hbounds : ¬((moveCell s.avatarPos dir).x < 0 ∨ s.gridSize ≤ (moveCell s.avatarPos dir).x ∨
      (moveCell s.avatarPos dir).y < 0 ∨ s.gridSize ≤ (moveCell s.avatarPos dir).y))
    (hw : hasWall s.walls s.avatarPos.x s.avatarPos.y dir = true) :
    (attemptMove s dir).isPlaying = false ∧
    ∀ d : MDir, attemptMove (attemptMove s dir) d = attemptMove s dir := by
  have hfail : (attemptMove s dir).isPlaying = false := by
    rw [attemptMove_collision hplay hbounds hw]
    have h := (handleCollision_fields s s.avatarPos.x s.avatarPos.y dir).2.2.2.2.2.2.2.2
    rw [h, if_pos hmode]
  exact ⟨hfail, fun d => attemptMove_not_playing hfail⟩

theorem claim_C3_challenge_collision_terminal_witness :
    (attemptMove { sampleBase with mode := Mode.challenge } .right).isPlaying = false ∧
    attemptMove (attemptMove { sampleBase with mode := Mode.challenge } .right) .top =
      attemptMove { sampleBase with mode := Mode.challenge } .right :=
  ⟨(claim_C3_challenge_collision_terminal { sampleBase with mode := Mode.challenge } .right
      (by decide) (by decide) (by decide) (by decide)).1,
    (claim_C3_challenge_collision_terminal { sampleBase with mode := Mode.challenge } .right
      (by decide) (by decide) (by decide) (by decide)).2 .top⟩

/-- C4: a collision leaves the key-collected flag exactly as it was, and
the flag is set to false (only) when a new level is generated by
`startGame`. -/
theorem claim_C4_key_retained_on_collision (s : GameState) (dir : MDir) (key : Cell)
    (sh : List Wall) (t : Nat) (hplay : s.isPlaying = true)
    (hbounds : ¬((moveCell s.avatarPos dir).x < 0 ∨ s.gridSize ≤ (moveCell s.avatarPos dir).x ∨
      (moveCell s.avatarPos dir).y < 0 ∨ s.gridSize ≤ (moveCell s.avatarPos dir).y))
    (hw : hasWall s.walls s.avatarPos.x s.avatarPos.y dir = true) :
    (attemptMove s dir).hasKey = s.hasKey ∧ (startGame s key sh t).hasKey = false := by
  constructor
  · rw [attemptMove_collision hplay hbounds hw]
    exact (handleCollision_fields s s.avatarPos.x s.avatarPos.y dir).2.2.2.1
  · rfl

theorem claim_C4_key_retained_on_collision_witness :
    (attemptMove { sampleBase with hasKey := true } .right).hasKey =
      ({ sampleBase with hasKey := true } : GameState).hasKey ∧
    (startGame { sampleBase with hasKey := true } ⟨1, 1⟩ [] 0).hasKey = false :=
  claim_C4_key_retained_on_collision { sampleBase with hasKey := true } .right ⟨1, 1⟩ [] 0
    (by decide) (by decide) (by decide)

/-- C6: on any move request the revealed-wall set only grows (the old
list is an initial segment of the new one), the wall set is untouched,
every revealed key keeps denoting a stored wall, and generating a new
level clears the revealed set. -/
theorem claim_C6_revealed_subset_monotone (s : GameState) (dir : MDir)
    (hsub : ∀ k ∈ s.revealedWalls, ∃ w ∈ s.walls, wallKeyStr w.x w.y w.dir = k)
    (s0 : GameState) (key : Cell) (sh : List Wall) (t : Nat) :
    (attemptMove s dir).revealedWalls.take s.revealedWalls.length = s.revealedWalls ∧
    (attemptMove s dir).walls = s.walls ∧
    (∀ k ∈ (attemptMove s dir).revealedWalls, ∃ w ∈ (attemptMove s dir).walls,
      wallKeyStr w.x w.y w.dir = k) ∧
    (startGame s0 key sh t).revealedWalls = [] := by
  cases hp : s.isPlaying with
  | false =>
    rw [attemptMove_not_playing hp]
    exact ⟨List.take_length _, rfl, hsub, rfl⟩
  | true =>
    by_cases hbnd : (moveCell s.avatarPos dir).x < 0 ∨
        s.gridSize ≤ (moveCell s.avatarPos dir).x ∨
        (moveCell s.avatarPos dir).y < 0 ∨ s.gridSize ≤ (moveCell s.avatarPos dir).y
    · have hid : attemptMove s dir = s := by
        rw [attemptMove, if_pos hp]
        simp only [moveAvatar]
        rw [if_pos hbnd]
      rw [hid]
      exact ⟨List.take_length _, rfl, hsub, rfl⟩
    · cases hw : hasWall s.walls s.avatarPos.x s.avatarPos.y dir with
      | true =>
        rw [attemptMove_collision hp hbnd hw]
        obtain ⟨_, h2, _, _, h5, _⟩ := handleCollision_fields s s.avatarPos.x s.avatarPos.y dir
        refine ⟨?_, h5, ?_, rfl⟩
        · rw [h2]
          by_cases hmem : collisionKey s.avatarPos.x s.avatarPos.y dir ∈ s.revealedWalls
          · rw [if_pos hmem, List.take_length]
          · rw [if_neg hmem, List.take_left]
        · intro k hk
          rw [h2] at hk
          rw [h5]
          by_cases hmem : collisionKey s.avatarPos.x s.avatarPos.y dir ∈ s.revealedWalls
          · rw [if_pos hmem] at hk
            exact hsub k hk
          · rw [if_neg hmem] at hk
            rcases List.mem_append.mp hk with hk | hk
            · exact hsub k hk
            · rw [List.mem_singleton] at hk
              subst hk
              exact collisionKey_of_hasWall hw
      | false =>
        rw [attemptMove_success hp hbnd hw]
        have hfields := checkEntityCollision_fields { s with avatarPos := moveCell s.avatarPos dir }
        have h2 : (checkEntityCollision
            { s with avatarPos := moveCell s.avatarPos dir }).revealedWalls =
            s.revealedWalls := hfields.2.1
        have h3 : (checkEntityCollision
            { s with avatarPos := moveCell s.avatarPos dir }).walls = s.walls := hfields.2.2.1
        refine ⟨?_, h3, ?_, rfl⟩
        · rw [h2, List.take_length]
        · intro k hk
          rw [h2] at hk
          rw [h3]
          exact hsub k hk

theorem claim_C6_revealed_subset_monotone_witness :
    (attemptMove { sampleBase with revealedWalls := ["0,1,right"] } .right).revealedWalls.take
      ({ sampleBase with revealedWalls := ["0,1,right"] } : GameState).revealedWalls.length =
      ({ sampleBase with revealedWalls := ["0,1,right"] } : GameState).revealedWalls ∧
    (attemptMove { sampleBase with revealedWalls := ["0,1,right"] } .right).walls =
      ({ sampleBase with revealedWalls := ["0,1,right"] } : GameState).walls ∧
    (startGame sampleBase ⟨1, 1⟩ [] 0).revealedWalls = [] := by
  obtain ⟨h1, h2, _, h4⟩ := claim_C6_revealed_subset_monotone
    { sampleBase with revealedWalls := ["0,1,right"] } .right (by decide) sampleBase ⟨1, 1⟩ [] 0
  exact ⟨h1, h2, h4⟩

/-- C8: a move request whose target cell lies outside the grid is a
no-op: the state is returned unchanged (so position, attempts, key flag
and revealed walls are all untouched). -/
theorem claim_C8_out_of_bounds_noop (s : GameState) (dir : MDir)
    (hbounds : (moveCell s.avatarPos dir).x < 0 ∨ s.gridSize ≤ (moveCell s.avatarPos dir).x ∨
      (moveCell s.avatarPos dir).y < 0 ∨ s.gridSize ≤ (moveCell s.avatarPos dir).y) :
    attemptMove s dir = s := by
  cases hp : s.isPlaying with
  | false => exact attemptMove_not_playing hp
  | true =>
    rw [attemptMove, if_pos hp]
    simp only [moveAvatar]
    rw [if_pos hbounds]

theorem claim_C8_out_of_bounds_noop_witness :
    attemptMove sampleBase .bottom = sampleBase :=
  claim_C8_out_of_bounds_noop sampleBase .bottom (by decide)

/-- C10: a successful move (in-bounds target, open edge) changes only the
actor position and possibly the key flag or play status: attempts,
revealed walls, the wall set, and the key and door positions are
unchanged, and the actor lands on the target cell. -/
theorem claim_C10_success_move_frame (s : GameState) (dir : MDir)
    (hplay : s.isPlaying = true)
    (hbounds : ¬((moveCell s.avatarPos dir).x < 0 ∨ s.gridSize ≤ (moveCell s.avatarPos dir).x ∨
      (moveCell s.avatarPos dir).y < 0 ∨ s.gridSize ≤ (moveCell s.avatarPos dir).y))
    (hw : hasWall s.walls s.avatarPos.x s.avatarPos.y dir = false) :
    (attemptMove s dir).attempts = s.attempts ∧
    (attemptMove s dir).revealedWalls = s.revealedWalls ∧
    (attemptMove s dir).walls = s.walls ∧
    (attemptMove s dir).keyPos = s.keyPos ∧
    (attemptMove s dir).doorPos = s.doorPos ∧
    (attemptMove s dir).avatarPos = moveCell s.avatarPos dir := by
  rw [attemptMove_success hplay hbounds hw]
  have hfields := checkEntityCollision_fields { s with avatarPos := moveCell s.avatarPos dir }
  exact ⟨hfields.1, hfields.2.1, hfields.2.2.1, hfields.2.2.2.1, hfields.2.2.2.2.1,
    hfields.2.2.2.2.2.2.1⟩

theorem claim_C10_success_move_frame_witness :
    (attemptMove sampleBase .top).attempts = sampleBase.attempts ∧
    (attemptMove sampleBase .top).revealedWalls = sampleBase.revealedWalls ∧
    (attemptMove sampleBase .top).walls = sampleBase.walls ∧
    (attemptMove sampleBase .top).keyPos = sampleBase.keyPos ∧
    (attemptMove sampleBase .top).doorPos = sampleBase.doorPos ∧
    (attemptMove sampleBase .top).avatarPos = moveCell sampleBase.avatarPos .top :=
  claim_C10_success_move_frame sampleBase .top (by decide) (by decide) (by decide)

example : hasPath [] 3 ⟨0, 2⟩ ⟨2, 0⟩ = true := by decide

example : hasPath [⟨0, 0, .right⟩, ⟨0, 0, .bottom⟩] 2 ⟨0, 0⟩ ⟨1, 1⟩ = false := by decide

example : isSolvable [] 3 (startCell 3) ⟨1, 1⟩ (doorCell 3) = true := by decide

example : (generateLevel 3 ⟨1, 1⟩ (possibleWalls 3) 2).length = 2 := by decide
